import Mathlib

/-!
Shallow embedding of the classic Clawpack solver kernels from
`src/pyclaw/classic/solver_cy.pyx`.

Modelling conventions:
* machine floats (`np.float64`) are modelled as rationals `ℚ`, so every
  algebraic identity below is exact arithmetic over the same field operations
  the code performs;
* numpy arrays are modelled as total functions `ℕ → ℚ` (resp. `ℕ → ℕ → ℚ`,
  `ℕ → ℕ → ℕ → ℚ`) from their index space; an in-place element assignment
  becomes a pointwise functional update; all index ranges the claims speak
  about stay in the natural numbers (the relevant bounds `1 ≤ LL ≤ UL` are
  carried as hypotheses, matching the C-integer arithmetic of the source);
* the `wave` array of the source is only ever consulted for its second shape
  component `wave.shape[1]` (the number of wave families), which is passed
  here as the explicit argument `num_waves`;
* `np.empty` scratch buffers are passed in explicitly as an `uninit`
  function giving their (arbitrary) initial contents.
-/

namespace PyClaw

/-- Module-level flag of the source file: `use_cython = True`. -/
def use_cython : Bool := true

/-- Pointwise update of a one-dimensional array: `a[i] = v`. -/
def upd1 (a : ℕ → ℚ) (i : ℕ) (v : ℚ) : ℕ → ℚ :=
  fun j => if j = i then v else a j

/-- Pointwise update of a two-dimensional array: `a[m, n] = v`. -/
def upd2 (a : ℕ → ℕ → ℚ) (m n : ℕ) (v : ℚ) : ℕ → ℕ → ℚ :=
  fun m' n' => if m' = m ∧ n' = n then v else a m' n'

/-- Body of the inner loop of `godunov_update_compiled` for a fixed equation
index `m` and interface index `n`:
`q[m,n] -= dtdx[n] * apdq[m,n-1]` followed by
`q[m,n-1] -= dtdx[n-1] * amdq[m,n-1]` (the second statement reads the state
left by the first one, exactly as the source does). -/
def godunovStep (dtdx : ℕ → ℚ) (apdq amdq : ℕ → ℕ → ℚ) (m : ℕ)
    (q : ℕ → ℕ → ℚ) (n : ℕ) : ℕ → ℕ → ℚ :=
  let q1 := upd2 q m n (q m n - dtdx n * apdq m (n - 1))
  upd2 q1 m (n - 1) (q1 m (n - 1) - dtdx (n - 1) * amdq m (n - 1))

/-- `godunov_update_compiled(dtdx, apdq, amdq, num_eqn, LL, UL, q)`:
the scalar double loop `for m in range(num_eqn): for n in range(LL, UL)` of
in-place subtractions on `q`, returning the final state of `q`. -/
def godunov_update_compiled (dtdx : ℕ → ℚ) (apdq amdq : ℕ → ℕ → ℚ)
    (num_eqn LL UL : ℕ) (q : ℕ → ℕ → ℚ) : ℕ → ℕ → ℚ :=
  (List.range num_eqn).foldl
    (fun q m => (List.range' LL (UL - LL)).foldl (godunovStep dtdx apdq amdq m) q) q

/-- Body of the per-equation iteration of the pure-numpy fallback branch of
`godunov_update`: the two vectorized slice subtractions
`q[m,LL:UL] -= dtdx[LL:UL]*apdq[m,LL-1:UL-1]` and
`q[m,LL-1:UL-1] -= dtdx[LL-1:UL-1]*amdq[m,LL-1:UL-1]` (the right-hand sides
do not read `q`, so each slice assignment is a simultaneous pointwise
update; position `j` of the first slice pairs `dtdx[j]` with `apdq[m,j-1]`,
and of the second `dtdx[j]` with `amdq[m,j]`). -/
def godunovRowFallback (dtdx : ℕ → ℚ) (apdq amdq : ℕ → ℕ → ℚ) (LL UL : ℕ)
    (q : ℕ → ℕ → ℚ) (m : ℕ) : ℕ → ℕ → ℚ :=
  let q1 : ℕ → ℕ → ℚ := fun m' j =>
    if m' = m ∧ LL ≤ j ∧ j < UL then q m' j - dtdx j * apdq m (j - 1) else q m' j
  fun m' j =>
    if m' = m ∧ LL - 1 ≤ j ∧ j < UL - 1 then q1 m' j - dtdx j * amdq m j else q1 m' j

/-- The pure-numpy fallback branch of `godunov_update` (the code below the
`if use_cython: return ...` line): `for m in xrange(num_eqn)` of the two
slice subtractions. -/
def godunov_update_fallback (dtdx : ℕ → ℚ) (apdq amdq : ℕ → ℕ → ℚ)
    (num_eqn LL UL : ℕ) (q : ℕ → ℕ → ℚ) : ℕ → ℕ → ℚ :=
  (List.range num_eqn).foldl (godunovRowFallback dtdx apdq amdq LL UL) q

/-- `godunov_update`: dispatches on the module flag `use_cython`. -/
def godunov_update (dtdx : ℕ → ℚ) (apdq amdq : ℕ → ℕ → ℚ)
    (num_eqn LL UL : ℕ) (q : ℕ → ℕ → ℚ) : ℕ → ℕ → ℚ :=
  if use_cython then godunov_update_compiled dtdx apdq amdq num_eqn LL UL q
  else godunov_update_fallback dtdx apdq amdq num_eqn LL UL q

/-- Total amount subtracted from cell `(m, j)` by one full Godunov sweep over
interfaces `[LL, UL)`: the `apdq` contribution when `j ∈ [LL, UL)` and the
`amdq` contribution when `j ∈ [LL-1, UL-1)` (written `LL ≤ j+1 ∧ j+1 < UL`
to avoid truncated subtraction). -/
def godunovDelta (dtdx : ℕ → ℚ) (apdq amdq : ℕ → ℕ → ℚ) (LL UL : ℕ)
    (m j : ℕ) : ℚ :=
  (if LL ≤ j ∧ j < UL then dtdx j * apdq m (j - 1) else 0)
    + (if LL ≤ j + 1 ∧ j + 1 < UL then dtdx j * amdq m j else 0)

lemma godunovStep_apply (dtdx : ℕ → ℚ) (apdq amdq : ℕ → ℕ → ℚ) (m n : ℕ)
    (q : ℕ → ℕ → ℚ) (hn : 1 ≤ n) (m' j : ℕ) :
    godunovStep dtdx apdq amdq m q n m' j =
      q m' j - (if m' = m ∧ j = n then dtdx j * apdq m (j - 1) else 0)
             - (if m' = m ∧ j + 1 = n then dtdx j * amdq m j else 0) := by
  simp only [godunovStep, upd2]
  by_cases hm : m' = m
  · subst hm
    by_cases hjn : j = n
    · subst hjn
      have h1 : ¬ (j = j - 1) := by omega
      have h2 : ¬ (j + 1 = j) := by omega
      simp [h1, h2]
    · by_cases hj1 : j + 1 = n
      · have h3 : j = n - 1 := by omega
        subst h3
        have h4 : ¬ (n - 1 = n) := by omega
        have h5 : n - 1 + 1 = n := by omega
        simp [h4, h5]
      · have h4 : ¬ (j = n - 1) := by omega
        simp [hjn, hj1, h4]
  · simp [hm]

lemma godunov_inner_apply (dtdx : ℕ → ℚ) (apdq amdq : ℕ → ℕ → ℚ)
    (m m' j : ℕ) :
    ∀ (k LL : ℕ) (q : ℕ → ℕ → ℚ), 1 ≤ LL →
      ((List.range' LL k).foldl (godunovStep dtdx apdq amdq m) q) m' j =
        q m' j
          - (if m' = m ∧ LL ≤ j ∧ j < LL + k then dtdx j * apdq m (j - 1) else 0)
          - (if m' = m ∧ LL ≤ j + 1 ∧ j + 1 < LL + k then dtdx j * amdq m j else 0) := by
  intro k
  induction k with
  | zero =>
    intro LL q hLL
    have h1 : ¬ (m' = m ∧ LL ≤ j ∧ j < LL + 0) := by rintro ⟨_, h, h'⟩; omega
    have h2 : ¬ (m' = m ∧ LL ≤ j + 1 ∧ j + 1 < LL + 0) := by rintro ⟨_, h, h'⟩; omega
    rw [if_neg h1, if_neg h2]
    simp
  | succ k ih =>
    intro LL q hLL
    rw [List.range'_succ, List.foldl_cons, ih (LL + 1) _ (by omega),
      godunovStep_apply dtdx apdq amdq m LL q hLL m' j]
    generalize dtdx j * apdq m (j - 1) = a
    generalize dtdx j * amdq m j = b
    split_ifs <;> first | ring1 | omega

/-- Generic closed form for a fold over equation rows where the row-`m`
iteration subtracts `δ m j` from row `m` and leaves the other rows alone. -/
lemma foldl_rowwise (step : (ℕ → ℕ → ℚ) → ℕ → (ℕ → ℕ → ℚ)) (δ : ℕ → ℕ → ℚ)
    (hstep : ∀ q m m' j, step q m m' j = q m' j - (if m' = m then δ m' j else 0))
    (m' j : ℕ) :
    ∀ (N : ℕ) (q : ℕ → ℕ → ℚ),
      ((List.range N).foldl step q) m' j
        = q m' j - (if m' < N then δ m' j else 0) := by
  intro N
  induction N with
  | zero => intro q; simp
  | succ N ih =>
    intro q
    rw [List.range_succ, List.foldl_append, List.foldl_cons, List.foldl_nil,
      hstep, ih q]
    generalize δ m' j = d
    split_ifs <;> first | ring1 | omega

lemma godunov_inner_as_delta (dtdx : ℕ → ℚ) (apdq amdq : ℕ → ℕ → ℚ)
    (LL UL : ℕ) (h1 : 1 ≤ LL) (h2 : LL ≤ UL) :
    ∀ (q : ℕ → ℕ → ℚ) (m m' j : ℕ),
      ((List.range' LL (UL - LL)).foldl (godunovStep dtdx apdq amdq m) q) m' j
        = q m' j - (if m' = m then godunovDelta dtdx apdq amdq LL UL m' j else 0) := by
  intro q m m' j
  rw [godunov_inner_apply dtdx apdq amdq m m' j (UL - LL) LL q h1]
  by_cases hm : m' = m
  · subst hm
    simp only [godunovDelta, true_and, if_true]
    generalize dtdx j * apdq m' (j - 1) = a
    generalize dtdx j * amdq m' j = b
    split_ifs <;> first | ring1 | omega
  · simp [hm]

lemma godunovRowFallback_as_delta (dtdx : ℕ → ℚ) (apdq amdq : ℕ → ℕ → ℚ)
    (LL UL : ℕ) (h1 : 1 ≤ LL) (h2 : LL ≤ UL) :
    ∀ (q : ℕ → ℕ → ℚ) (m m' j : ℕ),
      godunovRowFallback dtdx apdq amdq LL UL q m m' j
        = q m' j - (if m' = m then godunovDelta dtdx apdq amdq LL UL m' j else 0) := by
  intro q m m' j
  simp only [godunovRowFallback]
  by_cases hm : m' = m
  · subst hm
    simp only [godunovDelta, true_and, if_true]
    generalize dtdx j * apdq m' (j - 1) = a
    generalize dtdx j * amdq m' j = b
    split_ifs <;> first | ring1 | omega
  · simp [hm]

/-- Closed form of the compiled Godunov update at an arbitrary cell. -/
theorem godunov_update_compiled_apply (dtdx : ℕ → ℚ) (apdq amdq : ℕ → ℕ → ℚ)
    (num_eqn LL UL : ℕ) (q : ℕ → ℕ → ℚ) (h1 : 1 ≤ LL) (h2 : LL ≤ UL)
    (m' j : ℕ) :
    godunov_update_compiled dtdx apdq amdq num_eqn LL UL q m' j
      = q m' j
        - (if m' < num_eqn then godunovDelta dtdx apdq amdq LL UL m' j else 0) := by
  exact foldl_rowwise _ _ (fun q m m' j =>
    godunov_inner_as_delta dtdx apdq amdq LL UL h1 h2 q m m' j) m' j num_eqn q

/-- Closed form of the fallback Godunov update at an arbitrary cell. -/
theorem godunov_update_fallback_apply (dtdx : ℕ → ℚ) (apdq amdq : ℕ → ℕ → ℚ)
    (num_eqn LL UL : ℕ) (q : ℕ → ℕ → ℚ) (h1 : 1 ≤ LL) (h2 : LL ≤ UL)
    (m' j : ℕ) :
    godunov_update_fallback dtdx apdq amdq num_eqn LL UL q m' j
      = q m' j
        - (if m' < num_eqn then godunovDelta dtdx apdq amdq LL UL m' j else 0) := by
  exact foldl_rowwise _ _ (fun q m m' j =>
    godunovRowFallback_as_delta dtdx apdq amdq LL UL h1 h2 q m m' j) m' j num_eqn q

/-- C1: In the 1D first-order Godunov update, for every equation index
`m < num_eqn`, the final value of cell `(m, j)` is the initial value minus
`dtdx[j]*apdq[m,j-1]` when `j ∈ [LL, UL)` (the update `q[m,n] -= dtdx[n]*apdq[m,n-1]`
for `n ∈ [LL, UL)`) and minus `dtdx[j]*amdq[m,j]` when `j ∈ [LL-1, UL-1)`
(the update `q[m,n-1] -= dtdx[n-1]*amdq[m,n-1]` for `n ∈ [LL, UL)`); and no
entry of `q` outside the index range `[LL-1, UL)` is modified. -/
theorem claim_C1 (dtdx : ℕ → ℚ) (apdq amdq : ℕ → ℕ → ℚ) (num_eqn LL UL : ℕ)
    (q : ℕ → ℕ → ℚ) (h1 : 1 ≤ LL) (h2 : LL ≤ UL) :
    (∀ m j, m < num_eqn →
      godunov_update_compiled dtdx apdq amdq num_eqn LL UL q m j =
        q m j - (if LL ≤ j ∧ j < UL then dtdx j * apdq m (j - 1) else 0)
              - (if LL - 1 ≤ j ∧ j < UL - 1 then dtdx j * amdq m j else 0))
    ∧ (∀ m j, j < LL - 1 ∨ UL ≤ j ∨ num_eqn ≤ m →
      godunov_update_compiled dtdx apdq amdq num_eqn LL UL q m j = q m j) := by
  constructor
  · intro m j hm
    rw [godunov_update_compiled_apply dtdx apdq amdq num_eqn LL UL q h1 h2 m j,
      if_pos hm]
    simp only [godunovDelta]
    generalize dtdx j * apdq m (j - 1) = a
    generalize dtdx j * amdq m j = b
    split_ifs <;> first | ring1 | omega
  · intro m j hj
    rw [godunov_update_compiled_apply dtdx apdq amdq num_eqn LL UL q h1 h2 m j]
    simp only [godunovDelta]
    split_ifs <;> first | ring1 | omega

theorem claim_C1_witness :
    godunov_update_compiled (fun _ => (1 : ℚ)) (fun _ _ => 2) (fun _ _ => 3) 1 1 3
      (fun _ _ => 10) 0 1 = 5 := by
  have h := (claim_C1 (fun _ => (1 : ℚ)) (fun _ _ => 2) (fun _ _ => 3) 1 1 3
    (fun _ _ => 10) (by norm_num) (by norm_num)).1 0 1 (by norm_num)
  norm_num at h
  exact h

/-- C10: for valid bounds `1 ≤ LL ≤ UL`, the compiled scalar double loop and
the pure-numpy fallback branch of `godunov_update` leave `q` in identical
final states. -/
theorem claim_C10 (dtdx : ℕ → ℚ) (apdq amdq : ℕ → ℕ → ℚ) (num_eqn LL UL : ℕ)
    (q : ℕ → ℕ → ℚ) (h1 : 1 ≤ LL) (h2 : LL ≤ UL) :
    godunov_update_compiled dtdx apdq amdq num_eqn LL UL q
      = godunov_update_fallback dtdx apdq amdq num_eqn LL UL q := by
  funext m' j
  rw [godunov_update_compiled_apply dtdx apdq amdq num_eqn LL UL q h1 h2 m' j,
    godunov_update_fallback_apply dtdx apdq amdq num_eqn LL UL q h1 h2 m' j]

theorem claim_C10_witness :
    godunov_update_compiled (fun _ => (1 : ℚ)) (fun _ _ => 2) (fun _ _ => 3) 2 1 4
      (fun _ _ => 0) 1 2
      = godunov_update_fallback (fun _ => (1 : ℚ)) (fun _ _ => 2) (fun _ _ => 3) 2 1 4
        (fun _ _ => 0) 1 2 :=
  congrFun (congrFun (claim_C10 (fun _ => (1 : ℚ)) (fun _ _ => 2) (fun _ _ => 3) 2 1 4
    (fun _ _ => 0) (by norm_num) (by norm_num)) 1) 2

lemma sum_ite_Ico (g : ℕ → ℚ) (lo hi a b : ℕ) (ha : a ≤ lo) (hb : hi ≤ b) :
    ∑ j ∈ Finset.Ico a b, (if lo ≤ j ∧ j < hi then g j else 0)
      = ∑ j ∈ Finset.Ico lo hi, g j := by
  have h0 : ∀ x ∈ Finset.Ico a b, x ∉ Finset.Ico lo hi →
      (if lo ≤ x ∧ x < hi then g x else 0) = 0 := by
    intro x _ hx
    rw [Finset.mem_Ico] at hx
    exact if_neg hx
  rw [← Finset.sum_subset (Finset.Ico_subset_Ico ha hb) h0]
  exact Finset.sum_congr rfl fun x hx => by
    rw [Finset.mem_Ico] at hx
    exact if_pos ⟨hx.1, hx.2⟩

lemma sum_Ico_pred (g : ℕ → ℚ) (a b : ℕ) (ha : 1 ≤ a) :
    ∑ j ∈ Finset.Ico a b, g (j - 1) = ∑ i ∈ Finset.Ico (a - 1) (b - 1), g i := by
  rw [Finset.sum_Ico_eq_sum_range, Finset.sum_Ico_eq_sum_range]
  have hlen : b - 1 - (a - 1) = b - a := by omega
  rw [hlen]
  exact Finset.sum_congr rfl fun i _ => by
    congr 1
    omega

lemma sum_Ico_telescope (F : ℕ → ℚ) : ∀ a b : ℕ, a ≤ b →
    ∑ i ∈ Finset.Ico a b, (F (i + 1) - F i) = F b - F a := by
  intro a b
  induction b with
  | zero =>
    intro h
    have ha : a = 0 := by omega
    subst ha
    simp
  | succ b ih =>
    intro h
    rcases Nat.lt_or_ge a (b + 1) with h' | h'
    · have hab : a ≤ b := by omega
      rw [Finset.sum_Ico_succ_top hab, ih hab]
      ring
    · have ha : a = b + 1 := by omega
      subst ha
      simp

/-- C5: for uniform `dtdx = c`, the first-order Godunov update changes the
sum of `q[m,·]` over the touched range `[LL-1, UL)` by exactly `-c` times the
sum of the fluctuation pairs `amdq[m,i] + apdq[m,i]` over the interfaces
`i ∈ [LL-1, UL-1)`; consequently, when each fluctuation pair is a flux
difference (`amdq[m,i] + apdq[m,i] = F(i+1) - F(i)`, the flux indexed here by
its left endpoint) and the fluxes at the two ends of the range are equal, the
total sum of `q[m,·]` over any range `[0, N)` that contains all touched cells
(in particular over all physical cells together with the unmodified ghost
cells) is exactly invariant. -/
theorem claim_C5 (dtdx : ℕ → ℚ) (apdq amdq : ℕ → ℕ → ℚ) (num_eqn LL UL m : ℕ)
    (q : ℕ → ℕ → ℚ) (c : ℚ) (F : ℕ → ℚ)
    (h1 : 1 ≤ LL) (h2 : LL ≤ UL) (hm : m < num_eqn) (hc : ∀ n, dtdx n = c) :
    (∑ j ∈ Finset.Ico (LL - 1) UL,
        godunov_update_compiled dtdx apdq amdq num_eqn LL UL q m j)
      = (∑ j ∈ Finset.Ico (LL - 1) UL, q m j)
        - c * ∑ i ∈ Finset.Ico (LL - 1) (UL - 1), (amdq m i + apdq m i)
    ∧ ((∀ i, amdq m i + apdq m i = F (i + 1) - F i) → F (LL - 1) = F (UL - 1) →
        ∀ N, UL ≤ N →
          (∑ j ∈ Finset.Ico 0 N,
              godunov_update_compiled dtdx apdq amdq num_eqn LL UL q m j)
            = ∑ j ∈ Finset.Ico 0 N, q m j) := by
  have key : ∀ j, godunov_update_compiled dtdx apdq amdq num_eqn LL UL q m j
      = q m j - godunovDelta dtdx apdq amdq LL UL m j := fun j => by
    rw [godunov_update_compiled_apply dtdx apdq amdq num_eqn LL UL q h1 h2 m j,
      if_pos hm]
  have hdelta : ∀ j, godunovDelta dtdx apdq amdq LL UL m j
      = (if LL ≤ j ∧ j < UL then c * apdq m (j - 1) else 0)
        + (if LL - 1 ≤ j ∧ j < UL - 1 then c * amdq m j else 0) := fun j => by
    simp only [godunovDelta, hc]
    congr 1
    exact if_congr (by omega) rfl rfl
  have hcombine : ∀ s : Finset ℕ,
      (∑ i ∈ s, c * apdq m i) + (∑ i ∈ s, c * amdq m i)
        = c * ∑ i ∈ s, (amdq m i + apdq m i) := by
    intro s
    rw [Finset.mul_sum, ← Finset.sum_add_distrib]
    exact Finset.sum_congr rfl fun i _ => by ring
  have part1 : (∑ j ∈ Finset.Ico (LL - 1) UL,
        godunov_update_compiled dtdx apdq amdq num_eqn LL UL q m j)
      = (∑ j ∈ Finset.Ico (LL - 1) UL, q m j)
        - c * ∑ i ∈ Finset.Ico (LL - 1) (UL - 1), (amdq m i + apdq m i) := by
    simp only [key, hdelta]
    rw [Finset.sum_sub_distrib, Finset.sum_add_distrib,
      sum_ite_Ico (fun j => c * apdq m (j - 1)) LL UL (LL - 1) UL (by omega) le_rfl,
      sum_ite_Ico (fun j => c * amdq m j) (LL - 1) (UL - 1) (LL - 1) UL le_rfl (by omega),
      sum_Ico_pred (fun i => c * apdq m i) LL UL h1,
      ← hcombine (Finset.Ico (LL - 1) (UL - 1))]
  refine ⟨part1, fun hF hEnds N hN => ?_⟩
  have outside : ∀ j, j < LL - 1 ∨ UL ≤ j →
      godunov_update_compiled dtdx apdq amdq num_eqn LL UL q m j = q m j := by
    intro j hj
    rw [key j]
    simp only [godunovDelta]
    split_ifs <;> first | ring1 | omega
  have htel : ∑ i ∈ Finset.Ico (LL - 1) (UL - 1), (amdq m i + apdq m i)
      = F (UL - 1) - F (LL - 1) := by
    rw [Finset.sum_congr rfl fun i _ => hF i]
    exact sum_Ico_telescope F (LL - 1) (UL - 1) (by omega)
  have e1 : ∑ j ∈ Finset.Ico 0 (LL - 1),
      godunov_update_compiled dtdx apdq amdq num_eqn LL UL q m j
      = ∑ j ∈ Finset.Ico 0 (LL - 1), q m j :=
    Finset.sum_congr rfl fun j hj => by
      rw [Finset.mem_Ico] at hj
      exact outside j (Or.inl hj.2)
  have e3 : ∑ j ∈ Finset.Ico UL N,
      godunov_update_compiled dtdx apdq amdq num_eqn LL UL q m j
      = ∑ j ∈ Finset.Ico UL N, q m j :=
    Finset.sum_congr rfl fun j hj => by
      rw [Finset.mem_Ico] at hj
      exact outside j (Or.inr hj.1)
  have e2 : ∑ j ∈ Finset.Ico (LL - 1) UL,
      godunov_update_compiled dtdx apdq amdq num_eqn LL UL q m j
      = ∑ j ∈ Finset.Ico (LL - 1) UL, q m j := by
    rw [part1, htel, hEnds]
    ring
  rw [← Finset.sum_Ico_consecutive
      (fun j => godunov_update_compiled dtdx apdq amdq num_eqn LL UL q m j)
      (show (0 : ℕ) ≤ LL - 1 by omega) (show LL - 1 ≤ N by omega),
    ← Finset.sum_Ico_consecutive
      (fun j => godunov_update_compiled dtdx apdq amdq num_eqn LL UL q m j)
      (show LL - 1 ≤ UL by omega) hN,
    ← Finset.sum_Ico_consecutive (fun j => q m j)
      (show (0 : ℕ) ≤ LL - 1 by omega) (show LL - 1 ≤ N by omega),
    ← Finset.sum_Ico_consecutive (fun j => q m j)
      (show LL - 1 ≤ UL by omega) hN,
    e1, e2, e3]

theorem claim_C5_witness :
    (∑ j ∈ Finset.Ico 0 3,
        godunov_update_compiled (fun _ => (2 : ℚ)) (fun _ _ => 1) (fun _ _ => 1) 1 1 3
          (fun _ _ => 5) 0 j)
      = (∑ j ∈ Finset.Ico 0 3, (5 : ℚ))
        - 2 * ∑ i ∈ Finset.Ico 0 2, ((1 : ℚ) + 1) := by
  exact (claim_C5 (fun _ => (2 : ℚ)) (fun _ _ => 1) (fun _ _ => 1) 1 1 3 0
    (fun _ _ => 5) 2 (fun _ => 0) (by norm_num) (by norm_num) (by norm_num)
    (fun _ => rfl)).1

/-- Inner-loop body of `compute_max_wave_speed_compiled` on the state
`(cfl, smax1, smax2)`:
`smax1 = max(smax1, dtdx[n] * s[mw,n-1])`,
`smax2 = max(smax2, -dtdx[n-1] * s[mw,n-1])`,
`cfl = max(cfl, smax1, smax2)` (the local assignments written out). -/
def cflStep (dtdx : ℕ → ℚ) (s : ℕ → ℕ → ℚ) (mw : ℕ) (st : ℚ × ℚ × ℚ)
    (n : ℕ) : ℚ × ℚ × ℚ :=
  (max st.1 (max (max st.2.1 (dtdx n * s mw (n - 1)))
      (max st.2.2 (-(dtdx (n - 1) * s mw (n - 1))))),
   max st.2.1 (dtdx n * s mw (n - 1)),
   max st.2.2 (-(dtdx (n - 1) * s mw (n - 1))))

/-- `compute_max_wave_speed_compiled(wave, dtdx, s, LL, UL)`: starts from
`cfl = 0.0`, `smax1 = dtdx[LL]*s[0,LL-1]`, `smax2 = -dtdx[LL-1]*s[0,LL-1]`
and runs the double loop over `mw in range(wave.shape[1])`, `n in range(LL, UL)`;
`num_waves` stands for `wave.shape[1]`, the only use of `wave`. -/
def compute_max_wave_speed_compiled (num_waves : ℕ) (dtdx : ℕ → ℚ)
    (s : ℕ → ℕ → ℚ) (LL UL : ℕ) : ℚ :=
  ((List.range num_waves).foldl
    (fun st mw => (List.range' LL (UL - LL)).foldl (cflStep dtdx s mw) st)
    (0, dtdx LL * s 0 (LL - 1), -(dtdx (LL - 1) * s 0 (LL - 1)))).1

/-- `compute_max_wave_speed`: since the module flag `use_cython` is `True`,
the dispatcher always returns the compiled result (its pure-numpy lines are
unreachable). -/
def compute_max_wave_speed (num_waves : ℕ) (dtdx : ℕ → ℚ) (s : ℕ → ℕ → ℚ)
    (LL UL : ℕ) : ℚ :=
  compute_max_wave_speed_compiled num_waves dtdx s LL UL

/-- Modelled from the spec sentence of claim C3 (the reference accumulation
the code is compared against): one accumulation step
`cfl = max(cfl, dtdx[n]*speed[mw,n-1], -dtdx[n-1]*speed[mw,n-1])`. -/
def cflSpecStep (dtdx : ℕ → ℚ) (s : ℕ → ℕ → ℚ) (mw : ℕ) (c : ℚ) (n : ℕ) : ℚ :=
  max c (max (dtdx n * s mw (n - 1)) (-(dtdx (n - 1) * s mw (n - 1))))

/-- Modelled from the spec sentence of claim C3: starting from `cfl = 0`,
accumulate over every wave family `mw` and every interface `n ∈ [LL, UL)`. -/
def cfl_accumulate_spec (num_waves : ℕ) (dtdx : ℕ → ℚ) (s : ℕ → ℕ → ℚ)
    (LL UL : ℕ) : ℚ :=
  (List.range num_waves).foldl
    (fun c mw => (List.range' LL (UL - LL)).foldl (cflSpecStep dtdx s mw) c) 0

lemma max_merge (c s1 s2 t1 t2 : ℚ) (hs1 : s1 ≤ c) (hs2 : s2 ≤ c) :
    max c (max (max s1 t1) (max s2 t2)) = max c (max t1 t2) := by
  apply le_antisymm
  · apply max_le (le_max_left _ _)
    apply max_le
    · exact max_le (hs1.trans (le_max_left _ _))
        ((le_max_left t1 t2).trans (le_max_right _ _))
    · exact max_le (hs2.trans (le_max_left _ _))
        ((le_max_right t1 t2).trans (le_max_right _ _))
  · apply max_le (le_max_left _ _)
    apply max_le
    · exact ((le_max_right s1 t1).trans (le_max_left _ _)).trans (le_max_right _ _)
    · exact ((le_max_right s2 t2).trans (le_max_right _ _)).trans (le_max_right _ _)

/-- Simulation of one wave-family row: once the running maxima are dominated
by the running `cfl`, the compiled accumulation computes exactly the simple
accumulation of the spec, and the domination is preserved. -/
lemma cfl_row_sim (dtdx : ℕ → ℚ) (s : ℕ → ℕ → ℚ) (mw : ℕ) :
    ∀ (l : List ℕ) (st : ℚ × ℚ × ℚ), st.2.1 ≤ st.1 → st.2.2 ≤ st.1 →
      (l.foldl (cflStep dtdx s mw) st).1 = l.foldl (cflSpecStep dtdx s mw) st.1
      ∧ (l.foldl (cflStep dtdx s mw) st).2.1 ≤ (l.foldl (cflStep dtdx s mw) st).1
      ∧ (l.foldl (cflStep dtdx s mw) st).2.2 ≤ (l.foldl (cflStep dtdx s mw) st).1 := by
  intro l
  induction l with
  | nil => intro st hs1 hs2; exact ⟨rfl, hs1, hs2⟩
  | cons n l ih =>
    intro st hs1 hs2
    rw [List.foldl_cons, List.foldl_cons]
    have hstep2 : (cflStep dtdx s mw st n).2.1 ≤ (cflStep dtdx s mw st n).1 :=
      (le_max_left _ _).trans (le_max_right _ _)
    have hstep3 : (cflStep dtdx s mw st n).2.2 ≤ (cflStep dtdx s mw st n).1 :=
      (le_max_right _ _).trans (le_max_right _ _)
    obtain ⟨ih1, ih2, ih3⟩ := ih (cflStep dtdx s mw st n) hstep2 hstep3
    refine ⟨?_, ih2, ih3⟩
    rw [ih1]
    have hstep1 : (cflStep dtdx s mw st n).1 = cflSpecStep dtdx s mw st.1 n :=
      max_merge st.1 st.2.1 st.2.2 _ _ hs1 hs2
    rw [hstep1]

/-- Simulation across wave-family rows. -/
lemma cfl_rows_sim (dtdx : ℕ → ℚ) (s : ℕ → ℕ → ℚ) (inner : List ℕ) :
    ∀ (rows : List ℕ) (st : ℚ × ℚ × ℚ), st.2.1 ≤ st.1 → st.2.2 ≤ st.1 →
      (rows.foldl (fun st mw => inner.foldl (cflStep dtdx s mw) st) st).1
        = rows.foldl (fun c mw => inner.foldl (cflSpecStep dtdx s mw) c) st.1 := by
  intro rows
  induction rows with
  | nil => intro st _ _; rfl
  | cons mw rows ih =>
    intro st hs1 hs2
    rw [List.foldl_cons, List.foldl_cons]
    obtain ⟨h1, h2, h3⟩ := cfl_row_sim dtdx s mw inner st hs1 hs2
    rw [ih (inner.foldl (cflStep dtdx s mw) st) h2 h3, h1]

/-- Behaviour of the first wave-family row (`mw = 0`) of
`compute_max_wave_speed_compiled`: the first loop iteration contributes
exactly the values the running maxima were seeded with, so the seeds are
absorbed and the seeded fold computes the spec accumulation from `0`. -/
lemma cfl_row0 (dtdx : ℕ → ℚ) (s : ℕ → ℕ → ℚ) (LL len : ℕ) (hlen : 1 ≤ len) :
    ((List.range' LL len).foldl (cflStep dtdx s 0)
        (0, dtdx LL * s 0 (LL - 1), -(dtdx (LL - 1) * s 0 (LL - 1)))).1
      = (List.range' LL len).foldl (cflSpecStep dtdx s 0) 0
    ∧ ((List.range' LL len).foldl (cflStep dtdx s 0)
        (0, dtdx LL * s 0 (LL - 1), -(dtdx (LL - 1) * s 0 (LL - 1)))).2.1
      ≤ ((List.range' LL len).foldl (cflStep dtdx s 0)
        (0, dtdx LL * s 0 (LL - 1), -(dtdx (LL - 1) * s 0 (LL - 1)))).1
    ∧ ((List.range' LL len).foldl (cflStep dtdx s 0)
        (0, dtdx LL * s 0 (LL - 1), -(dtdx (LL - 1) * s 0 (LL - 1)))).2.2
      ≤ ((List.range' LL len).foldl (cflStep dtdx s 0)
        (0, dtdx LL * s 0 (LL - 1), -(dtdx (LL - 1) * s 0 (LL - 1)))).1 := by
  obtain ⟨k, rfl⟩ : ∃ k, len = k + 1 := ⟨len - 1, by omega⟩
  rw [List.range'_succ]
  simp only [List.foldl_cons]
  have hfirst : cflStep dtdx s 0
      (0, dtdx LL * s 0 (LL - 1), -(dtdx (LL - 1) * s 0 (LL - 1))) LL
      = (max 0 (max (dtdx LL * s 0 (LL - 1)) (-(dtdx (LL - 1) * s 0 (LL - 1)))),
         dtdx LL * s 0 (LL - 1), -(dtdx (LL - 1) * s 0 (LL - 1))) := by
    simp only [cflStep, max_self]
  rw [hfirst]
  have inv1 : dtdx LL * s 0 (LL - 1)
      ≤ max 0 (max (dtdx LL * s 0 (LL - 1)) (-(dtdx (LL - 1) * s 0 (LL - 1)))) :=
    (le_max_left _ _).trans (le_max_right _ _)
  have inv2 : -(dtdx (LL - 1) * s 0 (LL - 1))
      ≤ max 0 (max (dtdx LL * s 0 (LL - 1)) (-(dtdx (LL - 1) * s 0 (LL - 1)))) :=
    (le_max_right _ _).trans (le_max_right _ _)
  obtain ⟨hr1, hr2, hr3⟩ := cfl_row_sim dtdx s 0 (List.range' (LL + 1) k)
    (max 0 (max (dtdx LL * s 0 (LL - 1)) (-(dtdx (LL - 1) * s 0 (LL - 1)))),
     dtdx LL * s 0 (LL - 1), -(dtdx (LL - 1) * s 0 (LL - 1))) inv1 inv2
  exact ⟨by rw [hr1]; rfl, hr2, hr3⟩

/-- C3: for `1 ≤ num_waves` and `1 ≤ LL < UL`, `compute_max_wave_speed`
returns exactly the value obtained by starting from `cfl = 0` and
accumulating `cfl = max(cfl, dtdx[n]*s[mw,n-1], -dtdx[n-1]*s[mw,n-1])` over
every wave family and every interface `n ∈ [LL, UL)` (the seeds of the
running maxima `smax1`, `smax2` coincide with the terms contributed by the
first loop iteration `mw = 0`, `n = LL`, so they are absorbed). -/
theorem claim_C3 (num_waves : ℕ) (dtdx : ℕ → ℚ) (s : ℕ → ℕ → ℚ) (LL UL : ℕ)
    (h0 : 1 ≤ num_waves) (h1 : 1 ≤ LL) (h2 : LL < UL) :
    compute_max_wave_speed num_waves dtdx s LL UL
      = cfl_accumulate_spec num_waves dtdx s LL UL := by
  obtain ⟨nw, rfl⟩ : ∃ nw, num_waves = nw + 1 := ⟨num_waves - 1, by omega⟩
  unfold compute_max_wave_speed compute_max_wave_speed_compiled cfl_accumulate_spec
  rw [List.range_succ_eq_map]
  simp only [List.foldl_cons]
  obtain ⟨hr1, hr2, hr3⟩ := cfl_row0 dtdx s LL (UL - LL) (by omega)
  rw [cfl_rows_sim dtdx s (List.range' LL (UL - LL)) ((List.range nw).map Nat.succ)
    _ hr2 hr3, hr1]

theorem claim_C3_witness :
    compute_max_wave_speed 1 (fun _ => (1 : ℚ)) (fun _ _ => -2) 1 2
      = cfl_accumulate_spec 1 (fun _ => (1 : ℚ)) (fun _ _ => -2) 1 2 :=
  claim_C3 1 (fun _ => (1 : ℚ)) (fun _ _ => -2) 1 2 (by norm_num) (by norm_num)
    (by norm_num)

lemma cfl_fold_fst_mono (dtdx : ℕ → ℚ) (s : ℕ → ℕ → ℚ) (mw : ℕ) :
    ∀ (l : List ℕ) (st : ℚ × ℚ × ℚ), st.1 ≤ (l.foldl (cflStep dtdx s mw) st).1 := by
  intro l
  induction l with
  | nil => intro st; exact le_refl _
  | cons n l ih => intro st; exact (le_max_left _ _).trans (ih (cflStep dtdx s mw st n))

lemma cfl_rows_fst_mono (dtdx : ℕ → ℚ) (s : ℕ → ℕ → ℚ) (inner : List ℕ) :
    ∀ (rows : List ℕ) (st : ℚ × ℚ × ℚ),
      st.1 ≤ (rows.foldl (fun st mw => inner.foldl (cflStep dtdx s mw) st) st).1 := by
  intro rows
  induction rows with
  | nil => intro st; exact le_refl _
  | cons mw rows ih =>
    intro st
    exact (cfl_fold_fst_mono dtdx s mw inner st).trans
      (ih (inner.foldl (cflStep dtdx s mw) st))

/-- C8: the returned CFL value is non-negative for every valid input — even
when the swept range is empty (`LL = UL`) or every speed is negative — since
the running `cfl` starts at `0` and only ever grows, although the seeds
`smax1`, `smax2` may be negative. -/
theorem claim_C8 (num_waves : ℕ) (dtdx : ℕ → ℚ) (s : ℕ → ℕ → ℚ) (LL UL : ℕ)
    (h0 : 1 ≤ num_waves) (h1 : 1 ≤ LL) (h2 : LL ≤ UL) :
    0 ≤ compute_max_wave_speed num_waves dtdx s LL UL :=
  cfl_rows_fst_mono dtdx s (List.range' LL (UL - LL)) (List.range num_waves)
    (0, dtdx LL * s 0 (LL - 1), -(dtdx (LL - 1) * s 0 (LL - 1)))

theorem claim_C8_witness :
    0 ≤ compute_max_wave_speed 1 (fun _ => (1 : ℚ)) (fun _ _ => -5) 1 1 :=
  claim_C8 1 (fun _ => (1 : ℚ)) (fun _ _ => -5) 1 1 (by norm_num) (by norm_num)
    (by norm_num)

/-- `ClawSolver.step` as a trace model. Arguments: `source_split`,
`step_source` (whether `self.step_source is not None`), `cfl_max`, `dt`, and
`measured_cfl` — the value of `self.cfl.get_cached_max()` right after the
hyperbolic sub-step (the tracker is reset to `0` before it). Returns
`(success, pre, post)` where `pre` lists the `dt` arguments of the
`step_source` calls made before the hyperbolic sub-step and `post` those made
after the CFL check, in call order. The source reads: an optional Strang
half-step (`dt/2`) before; then `if get_cached_max() >= cfl_max: return False`;
then, when `step_source` is present, a Strang half-step (`dt/2`) and/or a
Godunov full step (`dt`); `return True`. -/
def ClawSolver.step (source_split : ℤ) (step_source : Bool) (cfl_max dt : ℚ)
    (measured_cfl : ℚ) : Bool × List ℚ × List ℚ :=
  let pre := if source_split = 2 ∧ step_source then [dt / 2] else []
  if cfl_max ≤ measured_cfl then (false, pre, [])
  else
    (true, pre,
      if step_source then
        (if source_split = 2 then [dt / 2] else [])
          ++ (if source_split = 1 then [dt] else [])
      else [])

/-- Counterexample to C2 as stated: with `cfl_max = 1` and a measured CFL of
exactly `1`, the CFL "does not exceed" `cfl_max`, yet the code rejects the
step (the source tests `>=`, not `>`). -/
theorem claim_C2_cex :
    ¬ (((ClawSolver.step 1 true 1 (1 / 2) 1).1 = true) ↔ ((1 : ℚ) ≤ 1)) := by
  decide

/-- C2 (amended): `ClawSolver.step` returns success iff the CFL tracked after
the hyperbolic sub-step is strictly below `cfl_max` (the code also rejects at
equality, where the claim's "does not exceed" would demand success);
whenever it returns failure it does so immediately after the hyperbolic
sub-step, with no post-hyperbolic source integration; in particular for
`cfl_max = 1` and measured CFL `3/2` it fails with zero post-hyperbolic
`step_source` calls. -/
theorem claim_C2 (source_split : ℤ) (step_source : Bool)
    (cfl_max dt measured_cfl : ℚ) :
    ((ClawSolver.step source_split step_source cfl_max dt measured_cfl).1 = true
      ↔ measured_cfl < cfl_max)
    ∧ ((ClawSolver.step source_split step_source cfl_max dt measured_cfl).1 = false
        → (ClawSolver.step source_split step_source cfl_max dt measured_cfl).2.2 = [])
    ∧ ((ClawSolver.step 1 true 1 dt (3 / 2)).1 = false
        ∧ (ClawSolver.step 1 true 1 dt (3 / 2)).2.2 = []) := by
  have hmain : ∀ (ss : ℤ) (sb : Bool) (cmax d mc : ℚ),
      ((ClawSolver.step ss sb cmax d mc).1 = true ↔ mc < cmax)
      ∧ ((ClawSolver.step ss sb cmax d mc).1 = false
          → (ClawSolver.step ss sb cmax d mc).2.2 = []) := by
    intro ss sb cmax d mc
    simp only [ClawSolver.step]
    by_cases h : cmax ≤ mc
    · rw [if_pos h]
      simp [not_lt.mpr h]
    · rw [if_neg h]
      simp [not_le.mp h]
  have h31 : (ClawSolver.step 1 true 1 dt (3 / 2)).1 = false := by
    simp only [ClawSolver.step]
    rw [if_pos (by norm_num : (1 : ℚ) ≤ 3 / 2)]
  exact ⟨(hmain source_split step_source cfl_max dt measured_cfl).1,
    (hmain source_split step_source cfl_max dt measured_cfl).2,
    h31, (hmain 1 true 1 dt (3 / 2)).2 h31⟩

theorem claim_C2_witness : (ClawSolver.step 1 true 1 (1 / 2) (3 / 2)).2.2 = [] :=
  (claim_C2 1 true 1 (1 / 2) (3 / 2)).2.1 ((claim_C2 1 true 1 (1 / 2) (3 / 2)).2.2.1)

/-- C6: per full time-step attempt whose CFL check passes: under Strang
splitting (`source_split = 2`) `step_source` is invoked exactly twice with
step size `dt/2` — once before the hyperbolic sub-step and once after the
CFL check; under Godunov splitting (`source_split = 1`) exactly once, after,
with the full `dt`; with `step_source = None` it is invoked zero times (for
any splitting mode and any measured CFL). -/
theorem claim_C6 (cfl_max dt measured_cfl : ℚ) (h : measured_cfl < cfl_max) :
    ((ClawSolver.step 2 true cfl_max dt measured_cfl).2.1 = [dt / 2]
      ∧ (ClawSolver.step 2 true cfl_max dt measured_cfl).2.2 = [dt / 2])
    ∧ ((ClawSolver.step 1 true cfl_max dt measured_cfl).2.1 = []
      ∧ (ClawSolver.step 1 true cfl_max dt measured_cfl).2.2 = [dt])
    ∧ (∀ (ss : ℤ) (mc : ℚ),
        (ClawSolver.step ss false cfl_max dt mc).2.1 = []
        ∧ (ClawSolver.step ss false cfl_max dt mc).2.2 = []) := by
  have hn : ¬ (cfl_max ≤ measured_cfl) := not_le.mpr h
  refine ⟨?_, ?_, ?_⟩
  · simp [ClawSolver.step, hn]
  · simp [ClawSolver.step, hn]
  · intro ss mc
    simp only [ClawSolver.step]
    split_ifs <;> simp_all

theorem claim_C6_witness :
    ((ClawSolver.step 2 true 1 1 0).2.1 = [(1 : ℚ) / 2]
      ∧ (ClawSolver.step 2 true 1 1 0).2.2 = [(1 : ℚ) / 2])
    ∧ ((ClawSolver.step 1 true 1 1 0).2.1 = []
      ∧ (ClawSolver.step 1 true 1 1 0).2.2 = [(1 : ℚ)])
    ∧ ((ClawSolver.step 3 false 1 1 0).2.1 = []
      ∧ (ClawSolver.step 3 false 1 1 0).2.2 = []) :=
  ⟨(claim_C6 1 1 0 (by norm_num)).1, (claim_C6 1 1 0 (by norm_num)).2.1,
   (claim_C6 1 1 0 (by norm_num)).2.2 3 0⟩

/-- User limiter specification: either a single non-list value or a Python
list of values (`self.limiters`). -/
inductive PyLimiters (α : Type) where
  | scalar (v : α)
  | list (l : List α)

/-- `ClawSolver._set_mthlim`: wrap a non-list value into a singleton list,
replicate a length-1 list `num_waves` times (Python list repetition
`self._mthlim * self.num_waves`), and raise when the resulting length is not
`num_waves`. -/
def ClawSolver._set_mthlim {α : Type} (limiters : PyLimiters α)
    (num_waves : ℕ) : Except String (List α) :=
  let mthlim := match limiters with
    | .scalar v => [v]
    | .list l => l
  let mthlim := if mthlim.length = 1
    then (List.replicate num_waves mthlim).flatten else mthlim
  if mthlim.length ≠ num_waves then
    Except.error "Length of solver.limiters is not equal to 1 or to solver.num_waves"
  else Except.ok mthlim

lemma flatten_replicate_singleton {α : Type} (v : α) :
    ∀ n, (List.replicate n [v]).flatten = List.replicate n v := by
  intro n
  induction n with
  | zero => rfl
  | succ n ih => simp [List.replicate_succ, ih]

/-- C7: `_set_mthlim` resolves the user limiter specification to exactly one
limiter identifier per wave family: a non-list value or a length-1 list is
replicated `num_waves` times, a list already of length `num_waves` is kept
unchanged, and for a list of any other length it raises an exception rather
than returning normally. -/
theorem claim_C7 {α : Type} (v : α) (l : List α) (n : ℕ) :
    ClawSolver._set_mthlim (PyLimiters.scalar v) n = Except.ok (List.replicate n v)
    ∧ ClawSolver._set_mthlim (PyLimiters.list [v]) n = Except.ok (List.replicate n v)
    ∧ (l.length = n → ClawSolver._set_mthlim (PyLimiters.list l) n = Except.ok l)
    ∧ (l.length ≠ 1 → l.length ≠ n →
        ∃ msg, ClawSolver._set_mthlim (PyLimiters.list l) n = Except.error msg) := by
  refine ⟨?_, ?_, ?_, ?_⟩
  · simp [ClawSolver._set_mthlim, flatten_replicate_singleton]
  · simp [ClawSolver._set_mthlim, flatten_replicate_singleton]
  · intro hlen
    simp only [ClawSolver._set_mthlim]
    by_cases h1 : l.length = 1
    · have hn : n = 1 := by omega
      subst hn
      rw [if_pos h1]
      have hj : (List.replicate 1 l).flatten = l := by simp
      rw [hj, if_neg (by omega : ¬ l.length ≠ 1)]
    · rw [if_neg h1, if_neg (by omega : ¬ l.length ≠ n)]
  · intro h1 h2
    refine ⟨"Length of solver.limiters is not equal to 1 or to solver.num_waves", ?_⟩
    simp only [ClawSolver._set_mthlim]
    rw [if_neg h1, if_pos h2]

theorem claim_C7_witness :
    ClawSolver._set_mthlim (PyLimiters.list [7, 8]) 2 = Except.ok [7, 8] :=
  (claim_C7 0 [7, 8] 2).2.2.1 rfl

/-- Python conditional-expression sign from the source fwave branch:
`-1 if s < 0 else 1 if s > 0 else 0`. -/
def sgn (x : ℚ) : ℚ :=
  if x < 0 then -1 else if 0 < x then 1 else 0

/-- `compute_correction_fluxes_compiled(wave, s, dtdx, num_eqn, num_ghost,
num_cells, LL, UL, fwave)`. `num_waves` stands for `wave.shape[1]`. The
scratch arrays `sabs`, `om`, `dtdxave`, `ssign` are `np.empty(UL-LL)`
buffers; their arbitrary initial contents are the explicit `uninit`
argument, and they are modelled as unbounded index maps so that the source's
write `ssign[n]` (subscript `n`, not `n - LL`, with bounds checking
disabled for the whole function) is representable; `f` starts as
`np.zeros((num_eqn, num_cells + 2*num_ghost))`. The scratch state is carried
across the wave-family rows, exactly as the preallocated buffers are. -/
def compute_correction_fluxes_compiled (wave : ℕ → ℕ → ℕ → ℚ) (s : ℕ → ℕ → ℚ)
    (dtdx : ℕ → ℚ) (num_waves num_eqn num_ghost num_cells LL UL : ℕ)
    (fwave : Bool) (uninit : ℕ → ℚ) : ℕ → ℕ → ℚ :=
  let dtdxave := (List.range' LL (UL - LL)).foldl
    (fun dav i => upd1 dav (i - LL) (1 / 2 * (dtdx (i - 1) + dtdx i))) uninit
  let rowStep := fun (st : (ℕ → ℚ) × (ℕ → ℚ) × (ℕ → ℚ) × (ℕ → ℕ → ℚ)) (mw : ℕ) =>
    let arrs := (List.range' LL (UL - LL)).foldl
      (fun (t : (ℕ → ℚ) × (ℕ → ℚ) × (ℕ → ℚ)) n =>
        let sabs := upd1 t.1 (n - LL) |s mw (n - 1)|
        let om := upd1 t.2.1 (n - LL) (1 - sabs (n - LL) * dtdxave (n - LL))
        let ssign := if fwave then upd1 t.2.2 n (sgn (s mw (n - 1))) else t.2.2
        (sabs, om, ssign))
      (st.1, st.2.1, st.2.2.1)
    let f := (List.range num_eqn).foldl (fun f m =>
      (List.range' LL (UL - LL)).foldl (fun f n =>
        upd2 f m n (f m n
          + 1 / 2 * (if fwave then arrs.2.2 (n - LL) else arrs.1 (n - LL))
            * arrs.2.1 (n - LL) * wave m mw (n - 1))) f) st.2.2.2
    (arrs.1, arrs.2.1, arrs.2.2, f)
  ((List.range num_waves).foldl rowStep (uninit, uninit, uninit, fun _ _ => 0)).2.2.2

/-- The pure-numpy fallback branch of `compute_correction_fluxes`:
`dtdxave = 0.5*(dtdx[LL-1:UL-1] + dtdx[LL:UL])`, and per wave family
`sabs = |s[mw,LL-1:UL-1]|`, `om = 1 - sabs*dtdxave[:UL-LL]`,
`ssign = np.sign(s[mw,LL-1:UL-1])`, then per equation
`f[m,LL:UL] += 0.5 * (ssign | sabs) * om * wave[m,mw,LL-1:UL-1]`; position
`n ∈ [LL, UL)` of the slice pairs `f[m,n]` with `s[mw,n-1]`, `dtdx[n-1]`,
`dtdx[n]` and `wave[m,mw,n-1]`. -/
def compute_correction_fluxes_fallback (wave : ℕ → ℕ → ℕ → ℚ) (s : ℕ → ℕ → ℚ)
    (dtdx : ℕ → ℚ) (num_waves num_eqn num_ghost num_cells LL UL : ℕ)
    (fwave : Bool) : ℕ → ℕ → ℚ :=
  (List.range num_waves).foldl (fun f mw =>
    (List.range num_eqn).foldl (fun f m =>
      fun m' n => if m' = m ∧ LL ≤ n ∧ n < UL then
          f m' n
            + 1 / 2 * (if fwave then sgn (s mw (n - 1)) else |s mw (n - 1)|)
              * (1 - |s mw (n - 1)| * (1 / 2 * (dtdx (n - 1) + dtdx n)))
              * wave m mw (n - 1)
        else f m' n) f) (fun _ _ => 0)

/-- `compute_correction_fluxes`: dispatches on the module flag `use_cython`
(which is `True`, so the compiled path is the one actually taken). -/
def compute_correction_fluxes (wave : ℕ → ℕ → ℕ → ℚ) (s : ℕ → ℕ → ℚ)
    (dtdx : ℕ → ℚ) (num_waves num_eqn num_ghost num_cells LL UL : ℕ)
    (fwave : Bool) (uninit : ℕ → ℚ) : ℕ → ℕ → ℚ :=
  if use_cython then
    compute_correction_fluxes_compiled wave s dtdx num_waves num_eqn num_ghost
      num_cells LL UL fwave uninit
  else
    compute_correction_fluxes_fallback wave s dtdx num_waves num_eqn num_ghost
      num_cells LL UL fwave

/-- Concrete fixture for claim C4: wave of ones. -/
def c4wave : ℕ → ℕ → ℕ → ℚ := fun _ _ _ => 1

/-- Concrete fixture for claim C4: speed `-1` at interface 0, `+1` elsewhere. -/
def c4s : ℕ → ℕ → ℚ := fun _ i => if i = 0 then -1 else 1

/-- Concrete fixture for claim C4: `dtdx` identically zero, so `om = 1`. -/
def c4dtdx : ℕ → ℚ := fun _ => 0

/-- C4 refuted (code bug): with one equation, one wave family,
`num_ghost = 2` (`LL = 1`), `num_cells = 1` (`UL = 4`) and `fwave` set, the
dispatched (compiled) implementation produces `f[0,2] = -1/2`, while the
claimed formula `0.5 * sign(s[mw,n-1]) * (1 - |s[mw,n-1]|*0.5*(dtdx[n-1]+dtdx[n]))
* wave[m,mw,n-1]` gives `+1/2` at `n = 2` (second conjunct), which is also
what the pure-numpy fallback computes (third conjunct). The compiled fwave
branch writes `ssign[n]` but reads `ssign[n - LL]`, so the sign it applies
at interface `n` belongs to interface `n - LL`. -/
theorem claim_C4_bug :
    compute_correction_fluxes c4wave c4s c4dtdx 1 1 2 1 1 4 true (fun _ => 0) 0 2
      = -(1 / 2)
    ∧ 1 / 2 * sgn (c4s 0 1) * (1 - |c4s 0 1| * (1 / 2 * (c4dtdx 1 + c4dtdx 2)))
        * c4wave 0 0 1 = 1 / 2
    ∧ compute_correction_fluxes_fallback c4wave c4s c4dtdx 1 1 2 1 1 4 true 0 2
      = 1 / 2 := by
  have hr3 : List.range' 1 (4 - 1) = [1, 2, 3] := rfl
  have hr1 : List.range 1 = [0] := rfl
  refine ⟨?_, ?_, ?_⟩
  · show compute_correction_fluxes_compiled c4wave c4s c4dtdx 1 1 2 1 1 4 true
      (fun _ => 0) 0 2 = -(1 / 2)
    simp only [compute_correction_fluxes_compiled, hr3, hr1, List.foldl_cons,
      List.foldl_nil, upd1, upd2, c4wave, c4s, c4dtdx, sgn]
    norm_num [upd1]
  · simp only [c4s, c4dtdx, c4wave, sgn]
    norm_num
  · simp only [compute_correction_fluxes_fallback, hr1, List.foldl_cons,
      List.foldl_nil, c4wave, c4s, c4dtdx, sgn]
    norm_num

/-- The sequence of subscripts at which the loops of
`compute_correction_fluxes_compiled` write the `ssign` scratch array when
`fwave` is set: for each wave-family row, the first inner loop executes
`ssign[n] = ...` for `n ∈ [LL, UL)` (subscript `n`, not `n - LL`). -/
def ssign_write_indices (num_waves LL UL : ℕ) (fwave : Bool) : List ℕ :=
  (((List.range num_waves).map (fun _ =>
    if fwave then List.range' LL (UL - LL) else []))).flatten

/-- The sequence of subscripts at which those loops read `ssign` when `fwave`
is set: for each wave-family row and each equation, the accumulation loop
reads `ssign[n - LL]` for `n ∈ [LL, UL)`. -/
def ssign_read_indices (num_waves num_eqn LL UL : ℕ) (fwave : Bool) : List ℕ :=
  ((List.range num_waves).map (fun _ =>
    ((List.range num_eqn).map (fun _ =>
      if fwave then (List.range' LL (UL - LL)).map (fun n => n - LL)
      else [])).flatten)).flatten

/-- C9 refuted (code bug): with one wave family, one equation,
`LL = num_ghost - 1 = 1` and `UL = 4`, the `ssign` buffer has length
`UL - LL = 3`, yet the sweep writes subscript `3` — out of the valid range
`[0, 3)`, with bounds checking disabled — and reads subscript `0`, which no
write of the sweep ever touches (an uninitialized `np.empty` slot). -/
theorem claim_C9_bug :
    (3 ∈ ssign_write_indices 1 1 4 true ∧ ¬ (3 < 4 - 1))
    ∧ (0 ∈ ssign_read_indices 1 1 1 4 true ∧ 0 ∉ ssign_write_indices 1 1 4 true) := by
  decide

end PyClaw
